import Mathlib

/-!
Verification of the Fiddle repository (a FRET-trace simulator GUI).

The file embeds, as executable Lean definitions:
  * the helpers of `src/main/python/lib/utils.py`
    (`numstring_to_ls`, `random_seed_mp`, `count_adjacent_values`,
    `plot_category`'s classification logic, `min_none`);
  * the generator-facing glue of `src/main/python/main.py`
    (`values_from_gui`, `set_traces`, `export_traces_to_ascii`,
    the preview's FRET-state extraction in `refresh_plots`);
  * the parts of the missing `lib.algorithms.generate_traces` engine that
    the specification describes, modelled from the spec where noted.

Python machine floats are modelled as `ℚ`; Python exceptions as an
explicit `Except` error type.
-/

namespace Fiddle

/-- The Python exceptions that the embedded code can raise. -/
inductive PyError where
  | typeError
  | valueError
  | configurationError
  | generationError
deriving DecidableEq, Repr

/-! ## `utils.min_none` -/

/-- Inner loop of CPython's builtin `min` on a list of optional integers:
the first element initialises the champion, and each later element is
compared with `item < best`.  Comparing `None` with an `int` (in either
position) raises `TypeError` in Python 3. -/
def pyMinGo : Option Int → List (Option Int) → Except PyError (Option Int)
  | best, [] => .ok best
  | best, y :: ys =>
    match y, best with
    | some a, some b => pyMinGo (if a < b then some a else some b) ys
    | _, _ => .error .typeError

/-- Python's builtin `min` on a list of optional integers.  An empty list
raises `ValueError`; a comparison between `None` and an `int` raises
`TypeError`; a singleton returns its element without any comparison. -/
def pyMin (ls : List (Option Int)) : Except PyError (Option Int) :=
  match ls with
  | [] => .error .valueError
  | x :: xs => pyMinGo x xs

/-- `utils.min_none`: evaluates `min(ls)` and catches `TypeError`,
returning `None` in that case.  (`ValueError` from an empty list is not
caught.)  The docstring says "Returns minimum value of list, and None if
all elements are None". -/
def min_none (ls : List (Option Int)) : Except PyError (Option Int) :=
  match pyMin ls with
  | .ok v => .ok v
  | .error .typeError => .ok none
  | .error e => .error e

/-! ## `utils.count_adjacent_values` -/

/-- `itertools.groupby` with the default key, reduced to what the caller
keeps: the list of (group key, group length) pairs for the maximal runs of
equal consecutive values. -/
def groupbyRuns : List Int → List (Int × Nat)
  | [] => []
  | x :: xs =>
    match groupbyRuns xs with
    | [] => [(x, 1)]
    | (y, n) :: rest =>
      if x = y then (x, n + 1) :: rest else (x, 1) :: (y, n) :: rest

/-- The `for v, l in same` loop of `utils.count_adjacent_values`: walks the
(key, length) pairs keeping a running offset `n`, recording
`_idx = n` and `_len = len(arr[n : n + l])` for each group. -/
def cavLoop (arr : List Int) : Nat → List (Int × Nat) → List Nat × List Nat
  | _, [] => ([], [])
  | n, (_, l) :: rest =>
    let len := ((arr.drop n).take l).length
    let r := cavLoop arr (n + l) rest
    (n :: r.1, len :: r.2)

/-- `utils.count_adjacent_values`: returns the start index and the length
of every maximal segment of equal values. -/
def count_adjacent_values (arr : List Int) : List Nat × List Nat :=
  cavLoop arr 0 (groupbyRuns arr)

/-- The partial sums of a list of segment lengths, offset by `n`: the
start indices that the `count_adjacent_values` loop computes. -/
def psums : Nat → List Nat → List Nat
  | _, [] => []
  | n, l :: ls => n :: psums (n + l) ls

/-! ## `utils.plot_category` (classification logic) -/

/-- The `cls` dictionary of `utils.plot_category`, mapping integer label
codes to category names. -/
def cls : List (Int × String) :=
  [(0, "bleached"), (1, "aggregate"), (2, "noisy"), (3, "scramble"),
   (4, "1-state"), (5, "2-state"), (6, "3-state"), (7, "4-state"),
   (8, "5-state")]

/-- The `colors` dictionary of `utils.plot_category`, mapping integer label
codes to matplotlib color names. -/
def colors : List (Int × String) :=
  [(0, "darkgrey"), (1, "red"), (2, "blue"), (3, "purple"), (4, "orange"),
   (5, "lightgreen"), (6, "green"), (7, "mediumseagreen"),
   (8, "darkolivegreen")]

/-- Dictionary lookup `d[k]` restricted to successful access. -/
def dictGet (d : List (Int × String)) (k : Int) : Option String :=
  (d.find? (fun p => p.1 == k)).map Prod.snd

/-- The guard of `utils.plot_category` on a 1-D integer label sequence:
`if len(colors) < len(set(y_)): raise ValueError(...)`.  The plotting
itself (axvspans and the legend) is presentation-only and not embedded. -/
def plot_category (y : List Int) : Except PyError Unit :=
  if colors.length < y.dedup.length then .error .valueError else .ok ()

/-! ## `utils.numstring_to_ls` and Python regex/float behaviour -/

/-- Python's `\s` whitespace class (ASCII part, which is all the GUI field
can contain). -/
def isPySpace (c : Char) : Bool :=
  c == ' ' || c == '\t' || c == '\n' || c == '\r' ||
    c == '\x0b' || c == '\x0c'

/-- One match of the regex `\d+(\.\d+)?\s*` whose `\d+` starts at the head
of the input (the caller guarantees the head is a digit).  Returns the text
captured by the group `(\.\d+)?` — the empty list when the optional group
does not participate — together with the remainder of the input after the
whole match.  `\d+` is greedy, the optional group participates exactly when
a dot followed by a digit comes next, and `\s*` is greedy. -/
def matchNum (cs : List Char) : List Char × List Char :=
  match cs.dropWhile Char.isDigit with
  | '.' :: c2 :: r2 =>
    if c2.isDigit then
      (('.' :: (c2 :: r2).takeWhile Char.isDigit),
        ((c2 :: r2).dropWhile Char.isDigit).dropWhile isPySpace)
    else ([], ('.' :: c2 :: r2).dropWhile isPySpace)
  | r1 => ([], r1.dropWhile isPySpace)

/-- The left-to-right scanning loop of `re.findall`, written with an
explicit fuel so that the recursion is structural; the fuel only ever
decreases by one per consumed character, so any fuel of at least the
input's length gives the scan's true result
(`findallGo_eq_of_le` below). -/
def findallGo : Nat → List Char → List (List Char)
  | 0, _ => []
  | _ + 1, [] => []
  | fuel + 1, c :: cs =>
    if c.isDigit then
      (matchNum (c :: cs)).1 :: findallGo fuel (matchNum (c :: cs)).2
    else
      findallGo fuel cs

/-- `re.findall(r'\d+(\.\d+)?\s*', s)`: scans left to right for
non-overlapping matches (the pattern starts with `\d+`, so a match can only
begin at a digit) and, because the pattern has exactly one capture group,
returns the list of captured group texts — not the whole matches. -/
def findallNums (s : List Char) : List (List Char) :=
  findallGo s.length s

/-- The numeric value of a digit string read in base 10. -/
def digitsVal (ds : List Char) : Nat :=
  ds.foldl (fun a c => a * 10 + (c.toNat - '0'.toNat)) 0

/-- Python `float(s)` on the strings this program can feed it: unsigned
simple decimal literals `digits`, `digits.digits`, `digits.`, `.digits`,
with everything else (in particular the empty string) raising
`ValueError`.  The value is represented exactly as a rational. -/
def pyFloat (s : List Char) : Except PyError ℚ :=
  let intD := s.takeWhile Char.isDigit
  match s.dropWhile Char.isDigit with
  | [] =>
    if intD = [] then .error .valueError else .ok (digitsVal intD : ℚ)
  | '.' :: r2 =>
    let fracD := r2.takeWhile Char.isDigit
    if r2.dropWhile Char.isDigit = [] ∧ (intD ≠ [] ∨ fracD ≠ []) then
      .ok ((digitsVal intD : ℚ) + (digitsVal fracD : ℚ) / 10 ^ fracD.length)
    else .error .valueError
  | _ => .error .valueError

/-- `utils.numstring_to_ls`: `[float(s) for s in re.findall(...)]` — the
first failing `float` conversion aborts the comprehension with its
exception. -/
def numstring_to_ls (s : List Char) : Except PyError (List ℚ) :=
  (findallNums s).mapM pyFloat

/-- A GUI-style token writing a number with integer part 0: the text
`0.<digits> ` (digits, then one separating space). -/
def zeroToken (ds : List Char) : List Char :=
  '0' :: '.' :: ds ++ [' ']

/-- A whole GUI text field of numbers that all have integer part 0. -/
def zeroTokens (fracs : List (List Char)) : List Char :=
  (fracs.map zeroToken).flatten

/-- The written value of a `0.<digits>` token. -/
def fracVal (ds : List Char) : ℚ :=
  (digitsVal ds : ℚ) / 10 ^ ds.length

/-! ## `utils.random_seed_mp` -/

/-- `int.from_bytes(bs, byteorder="little")`. -/
def fromBytesLE (bs : List Nat) : Nat :=
  bs.foldr (fun b acc => b + 256 * acc) 0

/-- Modelled from the spec: the state of the process-wide pseudo-random
number generator (`np.random`).  The engine that consumes it
(`lib.algorithms`) is not in the sources; the spec requires only that the
generator be a deterministic state machine that is explicitly seedable, so
the state is modelled as the seed together with a draw counter. -/
structure RngState where
  seed : Nat
  counter : Nat
deriving DecidableEq, Repr

/-- `np.random.seed(seed_val)`: resets the process-wide generator to the
state determined by `seed_val` alone. -/
def npRandomSeed (seedVal : Nat) : RngState :=
  ⟨seedVal, 0⟩

/-- `utils.random_seed_mp`: reads 4 bytes of OS entropy (`os.urandom(4)`,
made an explicit argument here), interprets them as a little-endian
integer `seed_val`, seeds the process-wide generator with it, and prints
the seed value when `verbose`.  Returns the new generator state and the
list of printed values. -/
def random_seed_mp (urandom4 : List Nat) (verbose : Bool) :
    RngState × List Nat :=
  let seed_val := fromBytesLE urandom4
  (npRandomSeed seed_val, if verbose then [seed_val] else [])

/-! ## `MainWindow.export_traces_to_ascii`: the per-trace file text

Text is modelled as `List Char`.  Dates, the trace identifier and the
bleach-frame text are runtime strings and stay parameters; the float
formatting of `DataFrame.to_csv` stays a parameter `fmt` because the exact
float-repr algorithm is irrelevant to the claims about the file layout. -/

/-- Floor of a rational, computed with flooring integer division. -/
def ratFloor (x : ℚ) : ℤ :=
  x.num.fdiv (x.den : ℤ)

/-- Round half to even to the nearest integer (the rounding used by
`numpy`/`pandas.DataFrame.round`). -/
def roundHalfEven (x : ℚ) : ℤ :=
  let f := ratFloor x
  let r := x - (f : ℚ)
  if r < 1 / 2 then f
  else if 1 / 2 < r then f + 1
  else if f % 2 = 0 then f else f + 1

/-- `DataFrame.round(4)` on one cell: round half to even at the fourth
decimal. -/
def round4 (x : ℚ) : ℚ :=
  (roundHalfEven (x * 10 ^ 4) : ℚ) / 10 ^ 4

/-- One row of the generator's result table as the exporter consumes it:
the three raw channels, stoichiometry and apparent FRET. -/
structure TraceRow where
  DD : ℚ
  DA : ℚ
  AA : ℚ
  S : ℚ
  E : ℚ

/-- The column names of the exported table, in the order the exporter's
`pd.DataFrame({...})` dictionary fixes them. -/
def exportColumns : List String :=
  ["D-Dexc-bg", "A-Dexc-bg", "A-Aexc-bg",
   "D-Dexc-rw", "A-Dexc-rw", "A-Aexc-rw", "S", "E"]

/-- One row of the exported `DataFrame` after `.round(4)`: the three
background columns are `np.zeros(len(trace))`, the rest come from the
trace, and every cell is rounded to 4 decimals. -/
def exportRow (r : TraceRow) : List ℚ :=
  [round4 0, round4 0, round4 0,
   round4 r.DD, round4 r.DA, round4 r.AA, round4 r.S, round4 r.E]

/-- `'\t'.join`-style joining of cells, as `to_csv(sep="\t")` lays a line
out. -/
def tabJoin : List (List Char) → List Char
  | [] => []
  | [c] => c
  | c :: cs => c ++ '\t' :: tabJoin cs

/-- `DataFrame.to_csv(index=False, sep="\t")`: the tab-joined header line,
then one tab-joined line per row, each line terminated by a newline. -/
def to_csv (fmt : ℚ → List Char) (rows : List TraceRow) : List Char :=
  tabJoin (exportColumns.map String.data) ++ '\n' ::
    (rows.map (fun r => tabJoin ((exportRow r).map fmt) ++ ['\n'])).flatten

/-- The full text written for one trace by
`MainWindow.export_traces_to_ascii`:
`"{0}\n{1}\n{2}\n{3}\n{4}\n\n{5}".format(exp_txt, date_txt, mov_txt,
id_txt, bl_txt, df.to_csv(index=False, sep="\t"))` with
`exp_txt = "Simulated trace exported by Fiddler"`,
`date_txt = "Date: " + strftime(...)`, `mov_txt = "Movie filename: None"`,
`id_txt = "FRET pair #" + str(idx)` and
`bl_txt = "Bleaches at " + str(trace["fb"].values[0])`. -/
def export_trace_ascii (dateStr idStr blStr : List Char)
    (fmt : ℚ → List Char) (rows : List TraceRow) : List Char :=
  "Simulated trace exported by Fiddler".data ++ '\n' ::
    (("Date: ".data ++ dateStr) ++ '\n' ::
      ("Movie filename: None".data ++ '\n' ::
        (("FRET pair #".data ++ idStr) ++ '\n' ::
          (("Bleaches at ".data ++ blStr) ++ '\n' :: '\n' ::
            to_csv fmt rows))))

/-- Split a character sequence at every newline; a trailing newline yields
a final empty line, so `nlSplit` of the empty text is one empty line. -/
def nlSplit : List Char → List (List Char)
  | [] => [[]]
  | c :: cs =>
    if c = '\n' then [] :: nlSplit cs
    else
      match nlSplit cs with
      | [] => [[c]]
      | l :: ls => (c :: l) :: ls

/-! ## `MainWindow.export_traces_to_ascii`: the row grouping

Before writing the files the exporter sets
`df.index = np.arange(0, len(df), 1) // traceLength` and iterates
`df.groupby(df.index)`. -/

/-- One row of the generator's result table, with the columns the grouping
step can see. -/
structure ResultRow where
  name : Nat
  frame : Nat
deriving DecidableEq, Repr

/-- The rows whose computed positional index `position // L` equals `k`,
in table order, with `i` the position of the first row of `rows` in the
full table: the group of key `k` produced by
`df.groupby(np.arange(0, len(df), 1) // L)`. -/
def idxFilter (L k : Nat) : Nat → List ResultRow → List ResultRow
  | _, [] => []
  | i, r :: rs =>
    if i / L = k then r :: idxFilter L k (i + 1) rs
    else idxFilter L k (i + 1) rs

/-- The group of key `k` of the exporter's positional grouping
`df.groupby(np.arange(0, len(df), 1) // int(inputTraceLength))`. -/
def positionalGroup (L : Nat) (rows : List ResultRow) (k : Nat) :
    List ResultRow :=
  idxFilter L k 0 rows

/-- Grouping the result table by the `name` column instead: the group of
key `k` is the rows whose `name` is `k`, in table order. -/
def nameGroup (rows : List ResultRow) (k : Nat) : List ResultRow :=
  rows.filter (fun r => r.name == k)

/-- The table layout the generator contract promises (spec §6): the table
is a concatenation of per-trace blocks; the block of trace `m + t` has
exactly `L` rows, all carrying name `m + t`. -/
def TraceMajor (L : Nat) : Nat → List (List ResultRow) → Prop
  | _, [] => True
  | m, T :: ts => T.length = L ∧ (∀ r ∈ T, r.name = m) ∧ TraceMajor L (m + 1) ts

/-! ## The trace generator

`lib.algorithms.generate_traces` is called by `main.py` but its source is
not part of the repository; the definitions in this section are modelled
from the spec (§3–§5, §7), faithful to its words for the aspects
the claims quantify over: parameter validation, scalar-or-range
resolution, per-trace randomness threading, the `discard_unbleached`
retry loop, and determinism in the seed. -/

/-- A scalar-or-range parameter, as the GUI hands it to the generator:
either one float, or a `(low, high)` tuple. -/
inductive ScalarOrRange where
  | scalar (v : ℚ)
  | range (low high : ℚ)
deriving DecidableEq, Repr

/-- The `state_means` argument: the string `"random"` or the fixed list
parsed from the GUI text field. -/
inductive StateMeansSpec where
  | random
  | fixed (ms : List ℚ)
deriving DecidableEq, Repr

/-- The scalar-or-range widget pattern of `MainWindow.values_from_gui`:
every one of `transition_prob`, `noise`, `aa_mismatch`, `bleed_through`
and `scaling_factor` is read as `float(lo)` when its lock checkbox is
checked and as the tuple `(float(lo), float(hi))` otherwise. -/
def values_from_gui_param (checked : Bool) (lo hi : ℚ) : ScalarOrRange :=
  if checked then .scalar lo else .range lo hi

/-- Modelled from the spec: one uniform draw in `[0, 1)` from the
process-wide generator.  The spec fixes no concrete pseudo-random
algorithm, only that draws are a deterministic function of the generator
state; any state-advancing map into `[0, 1)` realises that. -/
def nextUnit (g : RngState) : ℚ × RngState :=
  ((((g.seed + 2654435761 * g.counter) % 1000000 : Nat) : ℚ) / 1000000,
    ⟨g.seed, g.counter + 1⟩)

/-- Modelled from the spec (§4.1 Parameter Resolver): a parameter given as
a single scalar is used exactly; a parameter given as `(low, high)` draws
its per-trace value uniformly from `[low, high]`. -/
def resolveParam : ScalarOrRange → RngState → ℚ × RngState
  | .scalar v, g => (v, g)
  | .range lo hi, g =>
    (lo + (nextUnit g).1 * (hi - lo), (nextUnit g).2)

/-- Modelled from the spec: the per-trace resolution of one
scalar-or-range parameter over `n` traces, each trace drawing
independently from the shared generator. -/
def resolveAll : Nat → ScalarOrRange → RngState → List ℚ × RngState
  | 0, _, g => ([], g)
  | n + 1, p, g =>
    ((resolveParam p g).1 :: (resolveAll n p (resolveParam p g).2).1,
      (resolveAll n p (resolveParam p g).2).2)

/-- The full parameter record of `lib.algorithms.generate_traces`, with
the names of its keyword arguments in `MainWindow.set_traces`. -/
structure GenParams where
  n_traces : Nat
  aa_mismatch : ScalarOrRange
  state_means : StateMeansSpec
  random_k_states_max : Nat
  max_aggregate_size : Nat
  aggregation_prob : ℚ
  scramble_prob : ℚ
  trace_length : Nat
  trans_prob : ScalarOrRange
  blink_prob : ℚ
  bleed_through : ScalarOrRange
  noise : ScalarOrRange
  D_lifetime : Option ℚ
  A_lifetime : Option ℚ
  au_scaling_factor : ScalarOrRange
  discard_unbleached : Bool
  null_fret_value : ℚ
  min_state_diff : ℚ
  acceptable_noise : ℚ
deriving DecidableEq, Repr

/-- A range parameter must satisfy `low <= high` (spec §4.1). -/
def rangeOk : ScalarOrRange → Bool
  | .scalar _ => true
  | .range lo hi => decide (lo ≤ hi)

/-- A probability must lie in `[0, 1]` (spec §4.5). -/
def probOk (p : ℚ) : Bool :=
  decide (0 ≤ p) && decide (p ≤ 1)

/-- A fixed state-mean list must be non-empty (spec §4.5). -/
def stateMeansOk : StateMeansSpec → Bool
  | .random => true
  | .fixed ms => !ms.isEmpty

/-- Modelled from the spec (§4.1, §4.5, §7): the validation of the
parameter record, performed before any sampling starts. -/
def validParams (p : GenParams) : Bool :=
  rangeOk p.trans_prob && rangeOk p.noise && rangeOk p.aa_mismatch &&
    rangeOk p.bleed_through && rangeOk p.au_scaling_factor &&
    decide (2 ≤ p.random_k_states_max) &&
    probOk p.aggregation_prob && probOk p.scramble_prob &&
    probOk p.blink_prob && stateMeansOk p.state_means

/-- One simulated trace, with the ground-truth fields the claims read. -/
structure SimTrace where
  name : Nat
  bleaches_at : Option Nat
  E_true : List ℚ
  trans_prob : ℚ
  noise : ℚ
  aa_mismatch : ℚ
  bleed_through : ℚ
  au_scaling_factor : ℚ
deriving DecidableEq, Repr

/-- Modelled from the spec (§4.3): a channel bleach frame drawn from the
channel's lifetime, clipped to `[0, trace_length)`.  The spec asks for an
exponential waiting time; the exact distribution is irrelevant to every
claim, so the draw is any deterministic clipped map of the uniform
variate. -/
def expFrame (len : Nat) (lifetime u : ℚ) : Nat :=
  min (ratFloor (u * lifetime * 3)).toNat (len - 1)

/-- Modelled from the spec (§4.3): ``the earlier of the two channel bleach
times sets `_bleaches_at` '', `None` when neither channel bleaches within
the window.  (The repository's `min_none` deviates from this: see the
`min_none` theorems.) -/
def combineBleach : Option Nat → Option Nat → Option Nat
  | none, none => none
  | some d, none => some d
  | none, some a => some a
  | some d, some a => some (min d a)

/-- Modelled from the spec (§4.1): the ground-truth mean for one trace; a
fixed list picks one of its entries, `"random"` derives a state mean from
the generator draw. -/
def stateMeanOf (p : GenParams) (u : ℚ) : ℚ :=
  match p.state_means with
  | .fixed ms => ms.getD (min (ratFloor (u * ms.length)).toNat (ms.length - 1)) 0
  | .random => u

/-- Modelled from the spec (§4.2–§4.4, reduced to the fields the claims
read): generation of one trace.  Resolves every scalar-or-range parameter
per trace, draws the per-channel bleach frames from the lifetimes (`None`
lifetime means the channel never bleaches), combines them into
`bleaches_at`, and fills `E_true` with the state mean before the bleach
frame and with `null_fret_value` from it on. -/
def genOne (p : GenParams) (name : Nat) (g : RngState) :
    SimTrace × RngState :=
  let r1 := resolveParam p.trans_prob g
  let r2 := resolveParam p.noise r1.2
  let r3 := resolveParam p.aa_mismatch r2.2
  let r4 := resolveParam p.bleed_through r3.2
  let r5 := resolveParam p.au_scaling_factor r4.2
  let bd : Option Nat × RngState :=
    match p.D_lifetime with
    | none => (none, r5.2)
    | some l =>
      let u := nextUnit r5.2
      (some (expFrame p.trace_length l u.1), u.2)
  let ba : Option Nat × RngState :=
    match p.A_lifetime with
    | none => (none, bd.2)
    | some l =>
      let u := nextUnit bd.2
      (some (expFrame p.trace_length l u.1), u.2)
  let bleach := combineBleach bd.1 ba.1
  let um := nextUnit ba.2
  let mean := stateMeanOf p um.1
  let etrue := (List.range p.trace_length).map (fun f =>
    match bleach with
    | some b => if b ≤ f then p.null_fret_value else mean
    | none => mean)
  (⟨name, bleach, etrue, r1.1, r2.1, r3.1, r4.1, r5.1⟩, um.2)

/-- Modelled from the spec (§4.5): the bounded redraw loop used when
`discard_unbleached` is set — redraw until the trace bleaches, reporting
`GenerationError` when the budget is exhausted.  The third component
counts the redraws performed. -/
def retryLoop (p : GenParams) (name : Nat) :
    Nat → RngState → Nat → Except PyError (SimTrace × RngState × Nat)
  | 0, _, _ => .error .generationError
  | fuel + 1, g, tries =>
    let r := genOne p name g
    if r.1.bleaches_at.isSome then .ok (r.1, r.2, tries)
    else retryLoop p name fuel r.2 (tries + 1)

/-- Modelled from the spec (§4.5): generation of the trace of index
`name`, entering the redraw loop only when `discard_unbleached` is set. -/
def genTraceRetries (p : GenParams) (name : Nat) (g : RngState)
    (budget : Nat) : Except PyError (SimTrace × RngState × Nat) :=
  if p.discard_unbleached then retryLoop p name budget g 0
  else
    let r := genOne p name g
    .ok (r.1, r.2, 0)

/-- Modelled from the spec (§4.5): the batch driver, generating traces
with sequential names `i, i+1, ...` and accumulating the total number of
redraws. -/
def genDriverGo (p : GenParams) (budget : Nat) :
    Nat → Nat → RngState → Except PyError (List SimTrace × RngState × Nat)
  | _, 0, g => .ok ([], g, 0)
  | i, n + 1, g => do
    let t ← genTraceRetries p i g budget
    let rest ← genDriverGo p budget (i + 1) n t.2.1
    .ok (t.1 :: rest.1, rest.2.1, t.2.2 + rest.2.2)

/-- Modelled from the spec (§4.1, §4.5, §7):
`lib.algorithms.generate_traces` — validates the parameter record before
any sampling starts, failing with `ConfigurationError` and returning no
partial results, then drives the per-trace generation. -/
def generate_traces (p : GenParams) (g : RngState) (budget : Nat) :
    Except PyError (List SimTrace × RngState × Nat) :=
  if validParams p then genDriverGo p budget 0 p.n_traces g
  else .error .configurationError

/-! ## `MainWindow.set_traces` and the preview -/

/-- The `Inputs` record of `main.py`, with the types
`MainWindow.values_from_gui` actually stores (lifetimes become `None`
when the corresponding checkbox disables them). -/
structure Inputs where
  n_traces : Nat
  trace_len : Nat
  max_random_states : Nat
  donor_lifetime : Option ℚ
  acceptor_lifetime : Option ℚ
  max_aggregate_size : Nat
  aggregate_prob : ℚ
  scramble_prob : ℚ
  blinking_prob : ℚ
  transition_prob : ScalarOrRange
  scaling_factor : ScalarOrRange
  aa_mismatch : ScalarOrRange
  bleed_through : ScalarOrRange
  noise : ScalarOrRange
  fret_means : StateMeansSpec
deriving DecidableEq, Repr

/-- The keyword arguments of the `lib.algorithms.generate_traces` call in
`MainWindow.set_traces`: every field of `Inputs` is forwarded, and the
generation policy constants are pinned to the literals of the call site
(`discard_unbleached=False`, `null_fret_value=-1`, `min_state_diff=0.2`,
`acceptable_noise=0.25`). -/
def set_traces_params (inp : Inputs) (n_traces : Nat) : GenParams :=
  { n_traces := n_traces
    aa_mismatch := inp.aa_mismatch
    state_means := inp.fret_means
    random_k_states_max := inp.max_random_states
    max_aggregate_size := inp.max_aggregate_size
    aggregation_prob := inp.aggregate_prob
    scramble_prob := inp.scramble_prob
    trace_length := inp.trace_len
    trans_prob := inp.transition_prob
    blink_prob := inp.blinking_prob
    bleed_through := inp.bleed_through
    noise := inp.noise
    D_lifetime := inp.donor_lifetime
    A_lifetime := inp.acceptor_lifetime
    au_scaling_factor := inp.scaling_factor
    discard_unbleached := false
    null_fret_value := -1
    min_state_diff := 0.2
    acceptable_noise := 0.25 }

/-- `np.unique`: the sorted list of distinct values. -/
def npUnique (l : List ℚ) : List ℚ :=
  (l.mergeSort (· ≤ ·)).dedup

/-- The preview's extraction of the set of true FRET states in
`MainWindow.refresh_plots`:
`fret_states = np.unique(trace["E_true"]); fret_states[fret_states != -1]`. -/
def previewFretStates (etrue : List ℚ) : List ℚ :=
  (npUnique etrue).filter (fun x => x != -1)

/-- A concrete GUI input record, used to instantiate universally
quantified theorems on explicit values. -/
def sampleInputs : Inputs :=
  { n_traces := 2
    trace_len := 3
    max_random_states := 4
    donor_lifetime := none
    acceptor_lifetime := some 10
    max_aggregate_size := 2
    aggregate_prob := 0
    scramble_prob := 0
    blinking_prob := 0
    transition_prob := .scalar 0
    scaling_factor := .range 1 2
    aa_mismatch := .scalar 0
    bleed_through := .scalar 0
    noise := .range (1 / 100) (1 / 10)
    fret_means := .fixed [1 / 5, 4 / 5] }

/-- The parameter record `MainWindow.set_traces` builds from
`sampleInputs`. -/
def sampleParams : GenParams :=
  set_traces_params sampleInputs 2

/-- `sampleParams` with an inverted transition-probability range — an
invalid configuration. -/
def badRangeParams : GenParams :=
  { sampleParams with trans_prob := .range 1 0 }

/-- A concrete trace-major table: two traces of two frames each. -/
def wRows : List (List ResultRow) :=
  [[⟨0, 0⟩, ⟨0, 1⟩], [⟨1, 0⟩, ⟨1, 1⟩]]

/-! ## Claim theorems -/

theorem length_dropWhile_le (p : Char → Bool) (l : List Char) :
    (l.dropWhile p).length ≤ l.length :=
  (List.dropWhile_suffix p).length_le

theorem matchNum_rest_length (c : Char) (cs : List Char) (h : c.isDigit) :
    (matchNum (c :: cs)).2.length ≤ cs.length := by
  unfold matchNum
  have hdw : (c :: cs).dropWhile Char.isDigit = cs.dropWhile Char.isDigit := by
    simp [List.dropWhile, h]
  rw [hdw]
  have h1 : (cs.dropWhile Char.isDigit).length ≤ cs.length :=
    length_dropWhile_le _ cs
  split
  case h_1 c2 r2 heq =>
    split
    · have h2 : ((c2 :: r2).dropWhile Char.isDigit).length ≤ r2.length + 1 := by
        simpa using length_dropWhile_le Char.isDigit (c2 :: r2)
      have h3 := length_dropWhile_le isPySpace ((c2 :: r2).dropWhile Char.isDigit)
      have h4 : r2.length + 2 ≤ cs.length := by
        rw [heq] at h1; simpa using h1
      simp only []
      omega
    · have h3 := length_dropWhile_le isPySpace ('.' :: c2 :: r2)
      have h4 : r2.length + 2 ≤ cs.length := by
        rw [heq] at h1; simpa using h1
      simp only [List.length_cons] at h3 ⊢
      omega
  case h_2 =>
    have h3 := length_dropWhile_le isPySpace (cs.dropWhile Char.isDigit)
    dsimp only
    omega

/-- The scan does not depend on the fuel once the fuel dominates the input
length. -/
theorem findallGo_eq_of_le (fuel fuel' : Nat) (s : List Char)
    (h : s.length ≤ fuel) (h' : s.length ≤ fuel') :
    findallGo fuel s = findallGo fuel' s := by
  induction fuel using Nat.strong_induction_on generalizing fuel' s with
  | _ fuel ih =>
    cases s with
    | nil => cases fuel <;> cases fuel' <;> rfl
    | cons c cs =>
      cases fuel with
      | zero => simp at h
      | succ f =>
        cases fuel' with
        | zero => simp at h'
        | succ f' =>
          simp only [findallGo]
          by_cases hc : c.isDigit
          · rw [if_pos hc, if_pos hc]
            have hrest := matchNum_rest_length c cs hc
            simp only [List.length_cons] at h h'
            rw [ih f (Nat.lt_succ_self _) f' _ (by omega) (by omega)]
          · rw [if_neg hc, if_neg hc]
            simp only [List.length_cons] at h h'
            exact ih f (Nat.lt_succ_self _) f' cs (by omega) (by omega)

theorem nlSplit_ne_nil (s : List Char) : nlSplit s ≠ [] := by
  cases s with
  | nil => simp [nlSplit]
  | cons c cs =>
    simp only [nlSplit]
    split
    · simp
    · split
      · simp
      · simp

theorem nlSplit_append_cons (a b : List Char) (h : '\n' ∉ a) :
    nlSplit (a ++ '\n' :: b) = a :: nlSplit b := by
  induction a with
  | nil => simp [nlSplit]
  | cons c a' ih =>
    have hc : c ≠ '\n' := fun he => h (he ▸ List.mem_cons_self c a')
    have h' : '\n' ∉ a' := fun hm => h (List.mem_cons_of_mem c hm)
    simp only [List.cons_append, nlSplit, if_neg hc]
    rw [show a'.append ('\n' :: b) = a' ++ '\n' :: b from rfl, ih h']

theorem nlSplit_of_not_mem (a : List Char) (h : '\n' ∉ a) :
    nlSplit a = [a] := by
  induction a with
  | nil => rfl
  | cons c a' ih =>
    have hc : c ≠ '\n' := fun he => h (he ▸ List.mem_cons_self c a')
    have h' : '\n' ∉ a' := fun hm => h (List.mem_cons_of_mem c hm)
    simp only [nlSplit, if_neg hc, ih h']

theorem nlSplit_lines (ls : List (List Char))
    (h : ∀ l ∈ ls, '\n' ∉ l) :
    nlSplit (ls.map (fun l => l ++ ['\n'])).flatten = ls ++ [[]] := by
  induction ls with
  | nil => rfl
  | cons l ls ih =>
    have hl : '\n' ∉ l := h l (List.mem_cons_self l ls)
    have hls : ∀ x ∈ ls, '\n' ∉ x := fun x hx => h x (List.mem_cons_of_mem l hx)
    simp only [List.map_cons, List.flatten_cons, List.append_assoc,
      List.singleton_append]
    rw [nlSplit_append_cons l _ hl, ih hls]
    rfl

theorem tabJoin_not_mem (cells : List (List Char))
    (h : ∀ c ∈ cells, '\n' ∉ c) : '\n' ∉ tabJoin cells := by
  induction cells with
  | nil => simp [tabJoin]
  | cons c cs ih =>
    cases cs with
    | nil => simpa [tabJoin] using h c (List.mem_cons_self c [])
    | cons c2 cs2 =>
      have hc : '\n' ∉ c := h c (List.mem_cons_self c _)
      have hrest : '\n' ∉ tabJoin (c2 :: cs2) :=
        ih (fun x hx => h x (List.mem_cons_of_mem c hx))
      simp only [tabJoin, List.mem_append, List.mem_cons]
      rintro (hm | hm | hm)
      · exact hc hm
      · exact absurd hm (by decide)
      · exact hrest hm

theorem nextUnit_mem_Ico (g : RngState) :
    0 ≤ (nextUnit g).1 ∧ (nextUnit g).1 < 1 := by
  unfold nextUnit
  constructor
  · positivity
  · rw [div_lt_one (by norm_num)]
    have h : (g.seed + 2654435761 * g.counter) % 1000000 < 1000000 :=
      Nat.mod_lt _ (by norm_num)
    exact_mod_cast lt_of_lt_of_le (Nat.cast_lt.mpr h) (by norm_num)


/-- Claim C1 (code bug in `min_none`): the claim — and `min_none`'s own
docstring — say the combination of the two optional per-channel bleach
frames is the earlier of the bleach times whenever at least one channel
bleaches, `None` exactly when no channel does.  Evaluating the code: when
exactly one channel bleaches (one entry `None`, one a frame number), the
`min` comparison of `None` with an `int` raises `TypeError` in Python 3,
`min_none` catches it and returns `None`, silently dropping the bleach
frame; the minimum is only ever returned when both entries are numbers. -/
theorem C1_min_none_single_channel_bleach_lost :
    min_none [some 5, none] = .ok none ∧
    min_none [none, some 5] = .ok none ∧
    min_none [some 5, some 9] = .ok (some 5) ∧
    min_none [none, none] = .ok none :=
  ⟨rfl, rfl, rfl, rfl⟩

/-- Claim C3: every invalid parameter combination — a range parameter with
`low > high`, `max_random_states < 2`, a probability outside `[0, 1]`, or
an empty state-mean list — makes the generation call fail with a
`ConfigurationError` before any sampling starts; the `Except` result
carries no partial table. -/
theorem C3_invalid_params_configuration_error (p : GenParams)
    (g : RngState) (budget : Nat)
    (h : (∃ lo hi, p.trans_prob = .range lo hi ∧ hi < lo) ∨
         (∃ lo hi, p.noise = .range lo hi ∧ hi < lo) ∨
         (∃ lo hi, p.aa_mismatch = .range lo hi ∧ hi < lo) ∨
         (∃ lo hi, p.bleed_through = .range lo hi ∧ hi < lo) ∨
         (∃ lo hi, p.au_scaling_factor = .range lo hi ∧ hi < lo) ∨
         p.random_k_states_max < 2 ∨
         p.aggregation_prob < 0 ∨ 1 < p.aggregation_prob ∨
         p.scramble_prob < 0 ∨ 1 < p.scramble_prob ∨
         p.blink_prob < 0 ∨ 1 < p.blink_prob ∨
         p.state_means = .fixed []) :
    generate_traces p g budget = .error .configurationError := by
  have hv : validParams p = false := by
    rcases h with ⟨lo, hi, he, hlt⟩ | ⟨lo, hi, he, hlt⟩ | ⟨lo, hi, he, hlt⟩ |
      ⟨lo, hi, he, hlt⟩ | ⟨lo, hi, he, hlt⟩ | hk | hp | hp | hp | hp | hp |
      hp | he <;>
      simp_all [validParams, rangeOk, probOk, stateMeansOk, not_le,
        not_le.mpr]
  simp [generate_traces, hv]

/-- Claim C3 witness: a concrete inverted range fails with
`ConfigurationError`. -/
theorem C3_invalid_params_configuration_error_witness :
    generate_traces badRangeParams ⟨0, 0⟩ 3 = .error .configurationError :=
  C3_invalid_params_configuration_error badRangeParams ⟨0, 0⟩ 3
    (Or.inl ⟨1, 0, rfl, by norm_num⟩)

/-- Claim C4: the generator consumes randomness only through the
process-wide generator state it is handed; `random_seed_mp` re-seeds that
state from the entropy it read, records the seed value and logs it when
verbose; and two generation calls whose re-seeds used equal seed values
(with identical parameters) return identical result tables. -/
theorem C4_seed_determinism (bytes bytes' : List Nat) (v v' : Bool)
    (p : GenParams) (budget : Nat)
    (h : fromBytesLE bytes = fromBytesLE bytes') :
    generate_traces p (random_seed_mp bytes v).1 budget =
      generate_traces p (random_seed_mp bytes' v').1 budget ∧
    (random_seed_mp bytes true).2 = [fromBytesLE bytes] ∧
    (random_seed_mp bytes false).2 = [] ∧
    (random_seed_mp bytes v).1 = npRandomSeed (fromBytesLE bytes) := by
  refine ⟨?_, rfl, rfl, rfl⟩
  simp only [random_seed_mp, h]

/-- Claim C4 witness: equal 4-byte entropy, one verbose call and one
silent call, give identical tables. -/
theorem C4_seed_determinism_witness :
    generate_traces sampleParams (random_seed_mp [1, 0, 0, 0] true).1 3 =
      generate_traces sampleParams (random_seed_mp [1, 0, 0, 0] false).1 3 :=
  (C4_seed_determinism [1, 0, 0, 0] [1, 0, 0, 0] true false sampleParams 3
    rfl).1

theorem resolveParam_range_bounds (lo hi : ℚ) (g : RngState)
    (h : lo ≤ hi) :
    lo ≤ (resolveParam (.range lo hi) g).1 ∧
      (resolveParam (.range lo hi) g).1 ≤ hi := by
  obtain ⟨h0, h1⟩ := nextUnit_mem_Ico g
  simp only [resolveParam]
  constructor
  · nlinarith
  · nlinarith

/-- Claim C5: a scalar-or-range parameter read from the GUI resolves, per
trace, to exactly the scalar when the lock checkbox fixed it, and to a
value within `[lo, hi]` when it was given as a range with `lo ≤ hi`. -/
theorem C5_scalar_or_range_resolution (checked : Bool) (lo hi : ℚ)
    (n : Nat) (g : RngState) :
    (checked = true →
      ∀ x ∈ (resolveAll n (values_from_gui_param checked lo hi) g).1,
        x = lo) ∧
    (checked = false → lo ≤ hi →
      ∀ x ∈ (resolveAll n (values_from_gui_param checked lo hi) g).1,
        lo ≤ x ∧ x ≤ hi) := by
  constructor
  · rintro rfl x hx
    simp only [values_from_gui_param, if_true] at hx
    induction n generalizing g with
    | zero => simp [resolveAll] at hx
    | succ m ih =>
      simp only [resolveAll, resolveParam] at hx
      rcases List.mem_cons.mp hx with h | h
      · exact h
      · exact ih _ h
  · rintro rfl hlh x hx
    simp only [values_from_gui_param, Bool.false_eq_true, if_false] at hx
    induction n generalizing g with
    | zero => simp [resolveAll] at hx
    | succ m ih =>
      simp only [resolveAll] at hx
      rcases List.mem_cons.mp hx with h | h
      · exact h ▸ resolveParam_range_bounds lo hi g hlh
      · exact ih _ h

/-- Claim C5 witness: with the checkbox unlocked, all three per-trace
noise values drawn from the range `[1, 2]` lie within it. -/
theorem C5_scalar_or_range_resolution_witness :
    ∀ x ∈ (resolveAll 3 (values_from_gui_param false 1 2) ⟨7, 0⟩).1,
      (1 : ℚ) ≤ x ∧ x ≤ 2 :=
  (C5_scalar_or_range_resolution false 1 2 3 ⟨7, 0⟩).2 rfl (by norm_num)

/-- Claim C7: the preview's categorical encoding maps the label codes 0–8
to exactly bleached, aggregate, noisy, scramble and the k-state categories
(`3 + k` for k = 1..5); a code has a category exactly when it lies in
0..8; and `plot_category` raises `ValueError` exactly when the label
sequence has more distinct classes than there are colors (9). -/
theorem C7_label_categories :
    dictGet cls 0 = some "bleached" ∧
    dictGet cls 1 = some "aggregate" ∧
    dictGet cls 2 = some "noisy" ∧
    dictGet cls 3 = some "scramble" ∧
    dictGet cls (3 + 1) = some "1-state" ∧
    dictGet cls (3 + 2) = some "2-state" ∧
    dictGet cls (3 + 3) = some "3-state" ∧
    dictGet cls (3 + 4) = some "4-state" ∧
    dictGet cls (3 + 5) = some "5-state" ∧
    (∀ k : Int, (dictGet cls k).isSome ↔
      k ∈ ([0, 1, 2, 3, 4, 5, 6, 7, 8] : List Int)) ∧
    (∀ y : List Int,
      plot_category y = .error .valueError ↔
        colors.length < y.dedup.length) ∧
    colors.length = 9 := by
  refine ⟨rfl, rfl, rfl, rfl, rfl, rfl, rfl, rfl, rfl, ?_, ?_, rfl⟩
  · intro k
    have h1 : (dictGet cls k).isSome =
        (List.find? (fun p => p.1 == k) cls).isSome := by
      unfold dictGet
      cases List.find? (fun p => p.1 == k) cls <;> rfl
    rw [h1, List.find?_isSome]
    simp only [List.mem_cons, List.not_mem_nil, or_false]
    constructor
    · rintro ⟨x, hx, he⟩
      simp only [cls, List.mem_cons, List.not_mem_nil, or_false] at hx
      rcases hx with h | h | h | h | h | h | h | h | h <;> subst h <;>
        simp only [beq_iff_eq] at he <;> omega
    · rintro (h | h | h | h | h | h | h | h | h) <;> subst h <;> decide
  · intro y
    unfold plot_category
    split
    · simp_all
    · simp_all

/-- Claim C10: the `set_traces` call site pins the generation policy to
`discard_unbleached = False`, `null_fret_value = -1`,
`min_state_diff = 0.2`, `acceptable_noise = 0.25`; with
`discard_unbleached` false the per-trace generation takes the straight
path with zero redraws (the retry loop is never entered); and the preview
removes exactly the value `-1` — the pinned null sentinel — when
extracting the set of true FRET states. -/
theorem C10_pinned_policy (inp : Inputs) (n : Nat) (g : RngState)
    (budget name : Nat) :
    (set_traces_params inp n).discard_unbleached = false ∧
    (set_traces_params inp n).null_fret_value = -1 ∧
    (set_traces_params inp n).min_state_diff = 0.2 ∧
    (set_traces_params inp n).acceptable_noise = 0.25 ∧
    genTraceRetries (set_traces_params inp n) name g budget =
      .ok ((genOne (set_traces_params inp n) name g).1,
        (genOne (set_traces_params inp n) name g).2, 0) ∧
    (∀ l : List ℚ, (-1 : ℚ) ∉ previewFretStates l ∧
      ∀ x ∈ l, x ≠ -1 → x ∈ previewFretStates l) := by
  refine ⟨rfl, rfl, rfl, rfl, rfl, ?_⟩
  intro l
  constructor
  · intro hm
    rcases List.mem_filter.mp hm with ⟨-, hne⟩
    simp at hne
  · intro x hx hne
    refine List.mem_filter.mpr ⟨?_, by simpa using hne⟩
    exact List.mem_dedup.mpr (List.mem_mergeSort.mpr hx)

/-- Claim C10 witness: the sample call's pinned `discard_unbleached`. -/
theorem C10_pinned_policy_witness :
    (set_traces_params sampleInputs 2).discard_unbleached = false :=
  (C10_pinned_policy sampleInputs 2 ⟨0, 0⟩ 3 0).1

/-! ## `count_adjacent_values` (claim C9) -/

theorem groupbyRuns_flatten (arr : List Int) :
    ((groupbyRuns arr).map (fun p => List.replicate p.2 p.1)).flatten =
      arr := by
  induction arr with
  | nil => rfl
  | cons x xs ih =>
    cases hgx : groupbyRuns xs with
    | nil =>
      have hxs : xs = [] := by
        rw [hgx] at ih
        simpa using ih.symm
      subst hxs
      rfl
    | cons hd rest =>
      obtain ⟨y, n⟩ := hd
      rw [hgx] at ih
      have hg : groupbyRuns (x :: xs) =
          if x = y then (x, n + 1) :: rest
          else (x, 1) :: (y, n) :: rest := by
        simp only [groupbyRuns, hgx]
      rw [hg]
      by_cases hxy : x = y
      · subst hxy
        rw [if_pos rfl]
        simp only [List.map_cons, List.flatten_cons, List.replicate_succ,
          List.cons_append] at ih ⊢
        rw [ih]
      · rw [if_neg hxy]
        simp only [List.map_cons, List.flatten_cons] at ih ⊢
        rw [List.replicate_one]
        simp only [List.singleton_append, List.cons_inj_right]
        exact ih

theorem flatten_replicate_length (gs : List (Int × Nat)) :
    ((gs.map (fun p => List.replicate p.2 p.1)).flatten).length =
      (gs.map Prod.snd).sum := by
  induction gs with
  | nil => rfl
  | cons q gs ih =>
    simp [List.flatten_cons, List.length_replicate, ih]

theorem groupbyRuns_snd_sum (arr : List Int) :
    ((groupbyRuns arr).map Prod.snd).sum = arr.length := by
  rw [← flatten_replicate_length, groupbyRuns_flatten]

theorem cavLoop_eq (arr : List Int) (gs : List (Int × Nat)) :
    ∀ n, n + (gs.map Prod.snd).sum ≤ arr.length →
      cavLoop arr n gs = (psums n (gs.map Prod.snd), gs.map Prod.snd) := by
  induction gs with
  | nil => intro n _; rfl
  | cons p gs ih =>
    obtain ⟨v, l⟩ := p
    intro n h
    simp only [List.map_cons, List.sum_cons] at h
    have hlen : ((arr.drop n).take l).length = l := by
      rw [List.length_take, List.length_drop]
      omega
    simp only [cavLoop, List.map_cons, psums, hlen]
    rw [ih (n + l) (by omega)]

theorem count_adjacent_values_eq (arr : List Int) :
    count_adjacent_values arr =
      (psums 0 ((groupbyRuns arr).map Prod.snd),
        (groupbyRuns arr).map Prod.snd) := by
  unfold count_adjacent_values
  exact cavLoop_eq arr _ 0 (by rw [groupbyRuns_snd_sum]; omega)

theorem psums_length (ls : List Nat) : ∀ n, (psums n ls).length = ls.length := by
  induction ls with
  | nil => intro n; rfl
  | cons l ls ih => intro n; simp [psums, ih]

theorem psums_get?_succ (ls : List Nat) :
    ∀ i n a l, (psums n ls).get? i = some a → ls.get? i = some l →
      i + 1 < ls.length → (psums n ls).get? (i + 1) = some (a + l) := by
  induction ls with
  | nil => intro i n a l h; simp [psums] at h
  | cons l0 ls ih =>
    intro i n a l h1 h2 h3
    cases i with
    | zero =>
      simp only [psums, List.get?_cons_zero, Option.some.injEq] at h1 h2
      subst h1; subst h2
      cases ls with
      | nil => simp at h3
      | cons l1 ls' =>
        simp [psums]
    | succ j =>
      simp only [psums, List.get?_cons_succ] at h1 h2 ⊢
      simp only [List.length_cons] at h3
      exact ih j (n + l0) a l h1 h2 (by omega)

theorem psums_shift (a : Nat) (ls : List Nat) :
    ∀ b, psums (a + b) ls = (psums b ls).map (fun x => a + x) := by
  induction ls with
  | nil => intro b; rfl
  | cons l ls ih =>
    intro b
    simp only [psums, List.map_cons, List.cons_inj_right]
    rw [show a + b + l = a + (b + l) by omega]
    exact ih (b + l)

theorem psums_eq_map (a : Nat) (ls : List Nat) :
    psums a ls = (psums 0 ls).map (fun x => a + x) := by
  have h := psums_shift a ls 0
  rwa [Nat.add_zero] at h

theorem get?_replicate_of_lt {α : Type} (a : α) :
    ∀ {n m : Nat}, m < n → (List.replicate n a).get? m = some a := by
  intro n
  induction n with
  | zero => intro m h; omega
  | succ k ih =>
    intro m h
    cases m with
    | zero => rfl
    | succ j =>
      rw [List.replicate_succ, List.get?_cons_succ]
      exact ih (by omega)

theorem run_get (gs : List (Int × Nat)) :
    ∀ i v l s, gs.get? i = some (v, l) →
      (psums 0 (gs.map Prod.snd)).get? i = some s →
      ∀ j, j < l →
        ((gs.map (fun q => List.replicate q.2 q.1)).flatten).get? (s + j) =
          some v := by
  induction gs with
  | nil => intro i v l s h; simp at h
  | cons q gs ih =>
    obtain ⟨v0, l0⟩ := q
    intro i v l s h1 h2 j hj
    cases i with
    | zero =>
      simp only [List.get?_cons_zero, Option.some.injEq, Prod.mk.injEq]
        at h1
      obtain ⟨rfl, rfl⟩ := h1
      simp only [List.map_cons, psums, List.get?_cons_zero,
        Option.some.injEq] at h2
      subst h2
      simp only [List.map_cons, List.flatten_cons]
      rw [List.get?_append (by rw [List.length_replicate]; omega)]
      exact get?_replicate_of_lt v0 (by omega)
    | succ i' =>
      simp only [List.get?_cons_succ] at h1
      simp only [List.map_cons, psums, List.get?_cons_succ] at h2
      rw [Nat.zero_add, psums_eq_map l0, List.get?_map] at h2
      cases hs' : (psums 0 (gs.map Prod.snd)).get? i' with
      | none => rw [hs'] at h2; simp at h2
      | some s' =>
        rw [hs'] at h2
        simp only [Option.map_some', Option.some.injEq] at h2
        subst h2
        simp only [List.map_cons, List.flatten_cons]
        rw [List.get?_append_right
          (by rw [List.length_replicate]; omega)]
        rw [List.length_replicate,
          show l0 + s' + j - l0 = s' + j by omega]
        exact ih i' v l s' h1 hs' j hj

/-- Claim C9: for every non-empty array, `count_adjacent_values` returns
`starts` and `lengths` of equal length that partition the array into runs
of equal values: `starts` begins at 0, each next start is the previous
start plus its length, the lengths sum to the array's length, and within
any one run all array elements are equal. -/
theorem C9_count_adjacent_values_partition (arr : List Int)
    (h : arr ≠ []) :
    (count_adjacent_values arr).1.length =
      (count_adjacent_values arr).2.length ∧
    (count_adjacent_values arr).1.head? = some 0 ∧
    (∀ i a l, (count_adjacent_values arr).1.get? i = some a →
      (count_adjacent_values arr).2.get? i = some l →
      i + 1 < (count_adjacent_values arr).1.length →
      (count_adjacent_values arr).1.get? (i + 1) = some (a + l)) ∧
    (count_adjacent_values arr).2.sum = arr.length ∧
    (∀ i s l, (count_adjacent_values arr).1.get? i = some s →
      (count_adjacent_values arr).2.get? i = some l →
      ∀ j k, j < l → k < l → arr.get? (s + j) = arr.get? (s + k)) := by
  rw [count_adjacent_values_eq arr]
  have hne : groupbyRuns arr ≠ [] := by
    intro hg
    apply h
    have := groupbyRuns_flatten arr
    rw [hg] at this
    simpa using this.symm
  refine ⟨psums_length _ 0, ?_, ?_, groupbyRuns_snd_sum arr, ?_⟩
  · cases hgs : groupbyRuns arr with
    | nil => exact absurd hgs hne
    | cons q qs => simp [psums]
  · intro i a l h1 h2 h3
    rw [psums_length _ 0] at h3
    exact psums_get?_succ _ i 0 a l h1 h2 h3
  · intro i s l h1 h2 j k hj hk
    rw [List.get?_map] at h2
    cases hq : (groupbyRuns arr).get? i with
    | none => rw [hq] at h2; simp at h2
    | some q =>
      obtain ⟨v, l'⟩ := q
      rw [hq] at h2
      simp only [Option.map_some', Option.some.injEq] at h2
      subst h2
      have hg1 := run_get (groupbyRuns arr) i v l' s hq h1 j hj
      have hg2 := run_get (groupbyRuns arr) i v l' s hq h1 k hk
      rw [groupbyRuns_flatten] at hg1 hg2
      rw [hg1, hg2]

/-- Claim C9 witness: the run decomposition of `[1, 1, 2]` starts at
index 0. -/
theorem C9_count_adjacent_values_partition_witness :
    (count_adjacent_values [1, 1, 2]).1.head? = some 0 :=
  (C9_count_adjacent_values_partition [1, 1, 2] (by decide)).2.1

/-! ## The exporter's row grouping (claim C6) -/

theorem traceMajor_name_at (L : Nat) (hL : 0 < L) :
    ∀ (ts : List (List ResultRow)) (m : Nat), TraceMajor L m ts →
      ∀ i r, ts.flatten.get? i = some r → r.name = m + i / L := by
  intro ts
  induction ts with
  | nil =>
    intro m _ i r hget
    simp at hget
  | cons T ts ih =>
    intro m hTM i r hget
    obtain ⟨hlen, hname, htail⟩ := hTM
    simp only [List.flatten_cons] at hget
    by_cases hi : i < L
    · rw [List.get?_append (by rw [hlen]; exact hi)] at hget
      rw [hname r (List.get?_mem hget), Nat.div_eq_of_lt hi]
      omega
    · push_neg at hi
      rw [List.get?_append_right (by rw [hlen]; exact hi)] at hget
      rw [hlen] at hget
      have hrec := ih (m + 1) htail (i - L) r hget
      have hdiv : i / L = (i - L) / L + 1 := Nat.div_eq_sub_div hL hi
      omega

theorem idxFilter_eq_filter (L k : Nat) :
    ∀ (rows : List ResultRow) (i : Nat),
      (∀ j r, rows.get? j = some r → r.name = (i + j) / L) →
      idxFilter L k i rows = rows.filter (fun r => r.name == k) := by
  intro rows
  induction rows with
  | nil => intro i _; rfl
  | cons r rs ih =>
    intro i hpt
    have hr : r.name = i / L := by
      simpa using hpt 0 r rfl
    have htail : ∀ j r', rs.get? j = some r' → r'.name = (i + 1 + j) / L := by
      intro j r' hj
      have h := hpt (j + 1) r' (by simpa using hj)
      rwa [show i + (j + 1) = i + 1 + j by omega] at h
    simp only [idxFilter]
    by_cases hik : i / L = k
    · rw [if_pos hik,
        List.filter_cons_of_pos (by rw [hr, hik]; simp),
        ih (i + 1) htail]
    · rw [if_neg hik,
        List.filter_cons_of_neg (by rw [hr]; simpa using hik),
        ih (i + 1) htail]

theorem traceMajor_filter_earlier (L : Nat) :
    ∀ (ts : List (List ResultRow)) (m : Nat), TraceMajor L m ts →
      ∀ j, j < m →
        ts.flatten.filter (fun r => r.name == j) = [] := by
  intro ts
  induction ts with
  | nil => intro m _ j _; rfl
  | cons T ts ih =>
    intro m hTM j hj
    obtain ⟨hlen, hname, htail⟩ := hTM
    simp only [List.flatten_cons, List.filter_append]
    rw [List.filter_eq_nil_iff.mpr
      (fun r hr => by rw [hname r hr]; simp only [beq_iff_eq]; omega),
      ih (m + 1) htail j (by omega)]
    rfl

theorem traceMajor_filter_name (L : Nat) :
    ∀ (ts : List (List ResultRow)) (m : Nat), TraceMajor L m ts →
      ∀ k T, ts.get? k = some T →
        ts.flatten.filter (fun r => r.name == m + k) = T := by
  intro ts
  induction ts with
  | nil =>
    intro m _ k T hget
    simp at hget
  | cons T0 ts ih =>
    intro m hTM k T hget
    obtain ⟨hlen, hname, htail⟩ := hTM
    simp only [List.flatten_cons, List.filter_append]
    cases k with
    | zero =>
      rw [List.get?_cons_zero, Option.some.injEq] at hget
      subst hget
      rw [List.filter_eq_self.mpr
        (fun r hr => by rw [hname r hr]; simp),
        traceMajor_filter_earlier L ts (m + 1) htail (m + 0) (by omega)]
      simp
    | succ k' =>
      rw [List.get?_cons_succ] at hget
      rw [List.filter_eq_nil_iff.mpr
        (fun r hr => by rw [hname r hr]; simp only [beq_iff_eq]; omega)]
      have h := ih (m + 1) htail k' T hget
      rw [show m + (k' + 1) = m + 1 + k' by omega, h]
      rfl

/-- Claim C6: on a result table in trace-major, frame-minor order in which
every trace has exactly `L` contiguous frames (and sequential names), the
exporter's grouping by the computed positional index `row // L` coincides
with grouping by the `name` column: both give, for each trace index `k`,
exactly that trace's frames, so exactly one file per trace is written. -/
theorem C6_positional_grouping_matches_name (L : Nat) (hL : 0 < L)
    (ts : List (List ResultRow)) (h : TraceMajor L 0 ts) (k : Nat)
    (T : List ResultRow) (hk : ts.get? k = some T) :
    positionalGroup L ts.flatten k = T ∧ nameGroup ts.flatten k = T := by
  have hname : nameGroup ts.flatten k = T := by
    have hf := traceMajor_filter_name L ts 0 h k T hk
    rw [Nat.zero_add] at hf
    exact hf
  refine ⟨?_, hname⟩
  rw [positionalGroup, idxFilter_eq_filter L k ts.flatten 0 ?_]
  · exact hname
  · intro j r hj
    have hn := traceMajor_name_at L hL ts 0 h j r hj
    simpa using hn

/-- Claim C6 witness: on the concrete two-trace table, positional and
name grouping both return exactly trace 1's frames. -/
theorem C6_positional_grouping_matches_name_witness :
    positionalGroup 2 wRows.flatten 1 = [⟨1, 0⟩, ⟨1, 1⟩] ∧
      nameGroup wRows.flatten 1 = [⟨1, 0⟩, ⟨1, 1⟩] :=
  C6_positional_grouping_matches_name 2 (by decide) wRows
    ⟨rfl, by decide, rfl, by decide, trivial⟩ 1 _ rfl

/-! ## The exporter's file layout (claim C2) -/

theorem nlSplit_cons_nl (s : List Char) :
    nlSplit ('\n' :: s) = [] :: nlSplit s := by
  simp [nlSplit]

theorem round4_zero : round4 0 = 0 := by
  norm_num [round4, roundHalfEven, ratFloor]

/-- Claim C2: each exported trace file is exactly a 5-line header (the
exporter identity line, the date line, the source-movie placeholder line,
the trace identifier line, the bleach-frame line), then a blank line, then
the tab-separated table whose header row names the eight columns in order
and whose data rows carry the three zero background columns followed by
the rounded channel, S and E values — every cell rounded to 4 decimal
places.  `fmt` is the float-to-text rendering of `to_csv`, assumed not to
emit newlines, as the runtime header strings are too. -/
theorem C2_export_file_layout (d i b : List Char) (fmt : ℚ → List Char)
    (rows : List TraceRow)
    (hd : '\n' ∉ d) (hi : '\n' ∉ i) (hb : '\n' ∉ b)
    (hfmt : ∀ q, '\n' ∉ fmt q) :
    nlSplit (export_trace_ascii d i b fmt rows) =
      ["Simulated trace exported by Fiddler".data,
       "Date: ".data ++ d,
       "Movie filename: None".data,
       "FRET pair #".data ++ i,
       "Bleaches at ".data ++ b,
       [],
       tabJoin (exportColumns.map String.data)] ++
      rows.map (fun r => tabJoin ((exportRow r).map fmt)) ++ [[]] ∧
    exportColumns = ["D-Dexc-bg", "A-Dexc-bg", "A-Aexc-bg", "D-Dexc-rw",
      "A-Dexc-rw", "A-Aexc-rw", "S", "E"] ∧
    (∀ r, exportRow r = [0, 0, 0, round4 r.DD, round4 r.DA, round4 r.AA,
      round4 r.S, round4 r.E]) := by
  have hDate : '\n' ∉ "Date: ".data ++ d := by
    simp only [List.mem_append]
    rintro (hm | hm)
    · exact absurd hm (by decide)
    · exact hd hm
  have hPair : '\n' ∉ "FRET pair #".data ++ i := by
    simp only [List.mem_append]
    rintro (hm | hm)
    · exact absurd hm (by decide)
    · exact hi hm
  have hBl : '\n' ∉ "Bleaches at ".data ++ b := by
    simp only [List.mem_append]
    rintro (hm | hm)
    · exact absurd hm (by decide)
    · exact hb hm
  have hHdr : '\n' ∉ tabJoin (exportColumns.map String.data) := by decide
  have hBody : ∀ l ∈ rows.map (fun r => tabJoin ((exportRow r).map fmt)),
      '\n' ∉ l := by
    intro l hl
    obtain ⟨r, -, rfl⟩ := List.mem_map.mp hl
    refine tabJoin_not_mem _ ?_
    intro c hc
    obtain ⟨q, -, rfl⟩ := List.mem_map.mp hc
    exact hfmt q
  refine ⟨?_, rfl, ?_⟩
  · unfold export_trace_ascii to_csv
    rw [nlSplit_append_cons _ _ (by decide),
      nlSplit_append_cons _ _ hDate,
      nlSplit_append_cons _ _ (by decide),
      nlSplit_append_cons _ _ hPair,
      nlSplit_append_cons _ _ hBl,
      nlSplit_cons_nl,
      nlSplit_append_cons _ _ hHdr]
    rw [show rows.map (fun r => tabJoin ((exportRow r).map fmt) ++ ['\n']) =
        (rows.map (fun r => tabJoin ((exportRow r).map fmt))).map
          (fun l => l ++ ['\n']) from by rw [List.map_map]; rfl]
    rw [nlSplit_lines _ hBody]
    simp
  · intro r
    simp [exportRow, round4_zero]

/-- Claim C2 witness: the layout theorem applied to empty runtime strings,
a newline-free constant formatter and no rows; the extracted fact is the
column-header order. -/
theorem C2_export_file_layout_witness :
    exportColumns = ["D-Dexc-bg", "A-Dexc-bg", "A-Aexc-bg", "D-Dexc-rw",
      "A-Dexc-rw", "A-Aexc-rw", "S", "E"] :=
  (C2_export_file_layout [] [] [] (fun _ => []) [] (by decide) (by decide)
    (by decide) (fun _ => List.not_mem_nil _)).2.1

/-! ## `numstring_to_ls` (claim C8) -/

theorem takeWhile_digits_of_all (ds : List Char)
    (h : ∀ c ∈ ds, c.isDigit) :
    ds.takeWhile Char.isDigit = ds ∧ ds.dropWhile Char.isDigit = [] := by
  induction ds with
  | nil => exact ⟨rfl, rfl⟩
  | cons c cs ih =>
    have hc : c.isDigit := h c (List.mem_cons_self c cs)
    obtain ⟨h1, h2⟩ := ih (fun x hx => h x (List.mem_cons_of_mem c hx))
    rw [List.takeWhile_cons, List.dropWhile_cons, if_pos hc, if_pos hc, h1,
      h2]
    exact ⟨rfl, rfl⟩

theorem span_digits_append (ds : List Char) (x : Char) (rest : List Char)
    (hds : ∀ c ∈ ds, c.isDigit) (hx : x.isDigit = false) :
    (ds ++ x :: rest).takeWhile Char.isDigit = ds ∧
    (ds ++ x :: rest).dropWhile Char.isDigit = x :: rest := by
  induction ds with
  | nil =>
    rw [List.nil_append, List.takeWhile_cons, List.dropWhile_cons, hx]
    exact ⟨rfl, rfl⟩
  | cons c cs ih =>
    have hc : c.isDigit := hds c (List.mem_cons_self c cs)
    obtain ⟨h1, h2⟩ := ih (fun y hy => hds y (List.mem_cons_of_mem c hy))
    rw [List.cons_append, List.takeWhile_cons, List.dropWhile_cons,
      if_pos hc, if_pos hc, h1, h2]
    exact ⟨rfl, rfl⟩

theorem matchNum_zero_token (ds rest : List Char) (hne : ds ≠ [])
    (hds : ∀ c ∈ ds, c.isDigit)
    (hrest : rest = [] ∨ rest.head? = some '0') :
    matchNum ('0' :: '.' :: ds ++ ' ' :: rest) = ('.' :: ds, rest) := by
  have hspace : rest.dropWhile isPySpace = rest := by
    rcases hrest with rfl | hh
    · rfl
    · cases rest with
      | nil => rfl
      | cons c cs =>
        simp only [List.head?_cons, Option.some.injEq] at hh
        subst hh
        rw [List.dropWhile_cons]
        simp [show isPySpace '0' = false from by decide]
  have hdw : ('0' :: '.' :: ds ++ ' ' :: rest).dropWhile Char.isDigit =
      '.' :: (ds ++ ' ' :: rest) := by
    rw [show ('0' :: '.' :: ds ++ ' ' :: rest) =
      '0' :: ('.' :: (ds ++ ' ' :: rest)) from rfl]
    rw [List.dropWhile_cons, if_pos (by decide), List.dropWhile_cons]
    simp [show ('.'.isDigit : Bool) = false from by decide]
  unfold matchNum
  rw [hdw]
  cases ds with
  | nil => exact absurd rfl hne
  | cons d0 ds' =>
    have hd0 : d0.isDigit := hds d0 (List.mem_cons_self d0 ds')
    obtain ⟨hta, hdr⟩ := span_digits_append (d0 :: ds') ' ' rest hds
      (by decide)
    rw [List.cons_append]
    simp only [hd0, if_true]
    rw [← List.cons_append, hta, hdr, List.dropWhile_cons]
    rw [show isPySpace ' ' = true from by decide]
    simp only [if_true, hspace]

theorem zeroTokens_shape (ds : List Char) (fs : List (List Char)) :
    zeroTokens (ds :: fs) = '0' :: '.' :: ds ++ ' ' :: zeroTokens fs := by
  simp [zeroTokens, zeroToken, List.flatten_cons, List.append_assoc]

theorem findallGo_zero_tokens (fracs : List (List Char)) :
    ∀ fuel, (zeroTokens fracs).length ≤ fuel →
      (∀ ds ∈ fracs, ds ≠ [] ∧ ∀ c ∈ ds, c.isDigit) →
      findallGo fuel (zeroTokens fracs) =
        fracs.map (fun ds => '.' :: ds) := by
  induction fracs with
  | nil =>
    intro fuel _ _
    cases fuel <;> rfl
  | cons ds fs ih =>
    intro fuel hfuel hall
    obtain ⟨hne, hds⟩ := hall ds (List.mem_cons_self ds fs)
    rw [zeroTokens_shape] at hfuel ⊢
    cases fuel with
    | zero => simp at hfuel
    | succ f =>
      rw [show ('0' :: '.' :: ds ++ ' ' :: zeroTokens fs) =
        '0' :: ('.' :: ds ++ ' ' :: zeroTokens fs) from rfl] at hfuel ⊢
      rw [findallGo, if_pos (by decide)]
      rw [show ('0' :: ('.' :: ds ++ ' ' :: zeroTokens fs)) =
        ('0' :: '.' :: ds ++ ' ' :: zeroTokens fs) from rfl]
      rw [matchNum_zero_token ds (zeroTokens fs) hne hds ?_]
      · simp only [List.map_cons, List.cons.injEq, true_and]
        have hlen : (zeroTokens fs).length ≤ f := by
          simp only [List.length_cons, List.length_append] at hfuel
          omega
        exact ih f hlen (fun d hd => hall d (List.mem_cons_of_mem ds hd))
      · cases fs with
        | nil => exact Or.inl rfl
        | cons ds2 fs2 =>
          right
          rw [zeroTokens_shape]
          rfl

theorem pyFloat_dot_digits (ds : List Char) (hne : ds ≠ [])
    (hds : ∀ c ∈ ds, c.isDigit) :
    pyFloat ('.' :: ds) = .ok ((digitsVal ds : ℚ) / 10 ^ ds.length) := by
  obtain ⟨hta, hdr⟩ := takeWhile_digits_of_all ds hds
  have hd1 : ('.' :: ds).dropWhile Char.isDigit = '.' :: ds := by
    rw [List.dropWhile_cons]
    simp [show ('.'.isDigit : Bool) = false from by decide]
  have hd2 : ('.' :: ds).takeWhile Char.isDigit = [] := by
    rw [List.takeWhile_cons]
    simp [show ('.'.isDigit : Bool) = false from by decide]
  simp only [pyFloat, hd1, hd2]
  rw [hta, hdr]
  rw [if_pos (⟨rfl, Or.inr hne⟩ :
    ([] : List Char) = [] ∧ (([] : List Char) ≠ [] ∨ ds ≠ []))]
  norm_num [digitsVal]

theorem mapM_pyFloat_tokens (fracs : List (List Char))
    (h : ∀ ds ∈ fracs, ds ≠ [] ∧ ∀ c ∈ ds, c.isDigit) :
    (fracs.map (fun ds => '.' :: ds)).mapM pyFloat =
      .ok (fracs.map fracVal) := by
  induction fracs with
  | nil => rfl
  | cons ds fs ih =>
    obtain ⟨hne, hds⟩ := h ds (List.mem_cons_self ds fs)
    rw [List.map_cons, List.map_cons, List.mapM_cons,
      pyFloat_dot_digits ds hne hds,
      ih (fun d hd => h d (List.mem_cons_of_mem ds hd))]
    rfl

/-- Claim C8: `numstring_to_ls` converts each regex match through the
decimal-fraction capture group rather than the whole match — every input
built from numbers with integer part 0 parses to the written values (the
concrete GUI-style input "0.2 0.8" gives [0.2, 0.8]); an input with a
nonzero integer part keeps only the fractional part ("12.5" gives [0.5]);
and a whole number without a decimal point makes `float('')` raise
`ValueError` ("2"). -/
theorem C8_numstring_capture_group (fracs : List (List Char))
    (h : ∀ ds ∈ fracs, ds ≠ [] ∧ ∀ c ∈ ds, c.isDigit) :
    numstring_to_ls (zeroTokens fracs) = .ok (fracs.map fracVal) ∧
    numstring_to_ls "0.2 0.8".data = .ok [1 / 5, 4 / 5] ∧
    numstring_to_ls "12.5".data = .ok [1 / 2] ∧
    numstring_to_ls "2".data = .error .valueError := by
  refine ⟨?_, ?_, ?_, rfl⟩
  · unfold numstring_to_ls findallNums
    rw [findallGo_zero_tokens fracs _ le_rfl h]
    exact mapM_pyFloat_tokens fracs h
  · have hv : numstring_to_ls "0.2 0.8".data =
        .ok [((0 : ℕ) : ℚ) + ((2 : ℕ) : ℚ) / 10 ^ 1,
             ((0 : ℕ) : ℚ) + ((8 : ℕ) : ℚ) / 10 ^ 1] := rfl
    rw [hv]
    norm_num
  · have hv : numstring_to_ls "12.5".data =
        .ok [((0 : ℕ) : ℚ) + ((5 : ℕ) : ℚ) / 10 ^ 1] := rfl
    rw [hv]
    norm_num

/-- Claim C8 witness: the universal part applied to the fraction digit
lists `2` and `8`, i.e. the input `"0.2 0.8 "`. -/
theorem C8_numstring_capture_group_witness :
    numstring_to_ls (zeroTokens [['2'], ['8']]) =
      .ok ([['2'], ['8']].map fracVal) :=
  (C8_numstring_capture_group [['2'], ['8']] (by decide)).1

end Fiddle
